import Mathlib

/-
Verification of the Pixealed `.pxl` converter core: a shallow embedding of
`src/modules/converter.py` (pack_image / read_pxl / verify_pxl),
`src/merkle.py` (build_merkle_tree) and `src/utils.py` (chunk_bytes).

Byte strings are `List Nat`.  The external primitives the code calls
(BLAKE3 hashing, the BLAKE3-derived AEAD key, XChaCha20-Poly1305,
Ed25519 sign/verify, canonical JSON encode plus `json.loads`, and the
random nonce drawn by one `pack_image` call) are collected in a `Prims`
record, so every definition stays executable; theorems state the
primitive facts they rely on (lengths, decode-inverts-encode,
decrypt-inverts-encrypt) as explicit hypotheses.  File I/O is modelled
by passing the file's bytes directly: `pack_image` returns the bytes it
would write (`none` when the Python code raises before writing), and
the readers take the file's contents as input.
-/

abbrev Bytes := List Nat

/-- Metadata mapping, carried opaquely through the manifest
(the core never interprets it). -/
abbrev MetaMap := List (String × String)

/-- The manifest dictionary built by `pack_image`
(field names follow the Python dict keys). -/
structure Manifest where
  metadata : MetaMap
  chunk_hashes : List String
  merkle_root : String
  chunk_size : Nat
  total_size : Nat
  num_chunks : Nat
deriving DecidableEq

/-- External primitives used by the converter.  `randNonce` is the value
`os.urandom(24)` returned for the single pack operation being modelled. -/
structure Prims where
  blake3Hex : Bytes → String
  encManifest : Manifest → Bytes
  decManifest : Bytes → Option Manifest
  deriveKey : Bytes → Bytes
  aeadEnc : Bytes → Bytes → Bytes → Bytes
  aeadDec : Bytes → Bytes → Bytes → Option Bytes
  sign : Bytes → Bytes → Bytes
  verifySig : Bytes → Bytes → Bytes → Bool
  randNonce : Bytes

-- Constants from src/modules/converter.py
def MAGIC : Bytes := [80, 88, 76, 33]    -- b"PXL!"
def FOOTER : Bytes := [69, 78, 68, 33]   -- b"END!"
def VERSION : Nat := 1
def CHUNK_SIZE : Nat := 256 * 1024
def NONCE_SIZE : Nat := 24

/-- UTF-8 bytes of an ASCII string (`str.encode()`); all strings the
converter hashes are ASCII hex digests, where UTF-8 equals the code
points. -/
def strBytes (s : String) : Bytes := s.data.map Char.toNat

/-- `utils.chunk_bytes`, written with an explicit fuel equal to the
input length so it reduces by structural recursion.  The Python loop
advances `offset` by `chunk_size` per iteration, so for `chunk_size ≥ 1`
a fuel of `data.length` is enough; the Python loop does not terminate
for `chunk_size = 0` on non-empty data, a case no claim touches. -/
def chunkFuel : Nat → Bytes → Nat → List Bytes
  | 0, _, _ => []
  | _, [], _ => []
  | fuel + 1, d, n => d.take n :: chunkFuel fuel (d.drop n) n

def chunk_bytes (data : Bytes) (chunkSize : Nat) : List Bytes :=
  chunkFuel data.length data chunkSize

/-- `merkle.hash_chunk`. -/
def hash_chunk (p : Prims) (data : Bytes) : String := p.blake3Hex data

/-- One pass of the Merkle loop: pair from index 0, duplicate the last
element on odd length, hash the UTF-8 bytes of the two children's hex
strings concatenated. -/
def merkleLevelUp (p : Prims) : List String → List String
  | [] => []
  | [l] => [p.blake3Hex (strBytes (l ++ l))]
  | l :: r :: rest => p.blake3Hex (strBytes (l ++ r)) :: merkleLevelUp p rest

/-- The `while len(current_level) > 1` loop, with fuel: each pass at
least halves a level of length ≥ 2, so the initial length is enough. -/
def reduceFuel (p : Prims) : Nat → List String → List String
  | 0, level => level
  | fuel + 1, level =>
    if level.length ≤ 1 then level else reduceFuel p fuel (merkleLevelUp p level)

def merkleReduce (p : Prims) (level : List String) : List String :=
  reduceFuel p level.length level

/-- `merkle.build_merkle_tree`: `none` models the `ValueError` raised on
an empty chunk list; otherwise returns `(current_level[0], chunk_hashes)`. -/
def build_merkle_tree (p : Prims) (chunks : List Bytes) :
    Option (String × List String) :=
  if chunks.isEmpty then none
  else
    some ((merkleReduce p (chunks.map p.blake3Hex)).headD "",
          chunks.map p.blake3Hex)

/-- `struct.pack("<I", n)` (the Python call raises for `n ≥ 2^32`;
theorems that decode the field back carry that bound). -/
def le32 (n : Nat) : Bytes :=
  [n % 256, n / 256 % 256, n / 65536 % 256, n / 16777216 % 256]

/-- `struct.unpack("B", buf[o:o+1])`: `none` models the `struct.error`
raised when the (truncating) slice is shorter than one byte. -/
def readByte (l : Bytes) : Option Nat :=
  match l.take 1 with
  | [b] => some b
  | _ => none

/-- `struct.unpack("<I", buf[o:o+4])` on a truncating slice. -/
def readLE32 (l : Bytes) : Option Nat :=
  match l.take 4 with
  | [a, b, c, d] => some (a + 256 * b + 65536 * c + 16777216 * d)
  | _ => none

/-- Does `MAGIC` occur at index `i`? -/
def magicAt (l : Bytes) (i : Nat) : Bool :=
  decide ((l.drop i).take 4 = MAGIC)

/-- `bytes.rfind(MAGIC)`: the greatest index at which `MAGIC` occurs. -/
def rfindMagic (l : Bytes) : Option Nat :=
  ((List.range l.length).filter (fun i => magicAt l i)).getLast?

/-- `MAGIC` occurs nowhere in `t` except possibly at index 0. -/
def noLaterMagic (t : Bytes) : Bool :=
  (List.range t.length).all (fun j => decide (j = 0) || ! magicAt t j)

/-- `MAGIC` occurs nowhere in `s`, at any offset. -/
def noMagicIn (s : Bytes) : Bool :=
  (List.range s.length).all (fun j => ! magicAt s j)

/-- The fields recovered by the shared trailer parse of
`read_pxl` / `verify_pxl`. -/
structure ParseOut where
  encrypted : Bytes
  version : Nat
  mbytes : Bytes
  manifest : Manifest
  signature : Bytes
  nonce : Bytes
deriving DecidableEq

/-- Failure modes of `read_pxl` (each a distinct `ValueError` /
propagated exception site in the Python code). -/
inductive ReadErr where
  | noMagic | badMagic | shortField | badVersion | badManifest
  | badFooter | decryptFailed
deriving DecidableEq

/-- The tail-anchored parse shared by `read_pxl` and `verify_pxl`
(the Python code duplicates this block verbatim in both functions).
Successive `drop`/`take` on the suffix after the anchor is the same as
the Python absolute-offset slices `auth_block[offset:offset+k]`. -/
def parse_pxl (p : Prims) (allData : Bytes) : Except ReadErr ParseOut :=
  match rfindMagic allData with
  | none => .error .noMagic
  | some magicPos =>
    let encrypted := allData.take magicPos
    let ab := allData.drop magicPos
    if ab.take 4 = MAGIC then
      match readByte (ab.drop 4) with
      | none => .error .shortField
      | some v =>
        if v = VERSION then
          match readLE32 (ab.drop 5) with
          | none => .error .shortField
          | some mlen =>
            let r1 := ab.drop 9
            let mbytes := r1.take mlen
            match p.decManifest mbytes with
            | none => .error .badManifest
            | some manifest =>
              let r2 := r1.drop mlen
              let sig := r2.take 64
              let r3 := r2.drop 64
              match readByte r3 with
              | none => .error .shortField
              | some nlen =>
                let r4 := r3.drop 1
                let nonce := r4.take nlen
                let r5 := r4.drop nlen
                if r5.take 4 = FOOTER then
                  .ok ⟨encrypted, v, mbytes, manifest, sig, nonce⟩
                else .error .badFooter
        else .error .badVersion
    else .error .badMagic

/-- `converter.read_pxl`: parse, derive the AEAD key from the manifest
bytes, decrypt.  No signature check. -/
def read_pxl (p : Prims) (allData : Bytes) : Except ReadErr (Bytes × Manifest) :=
  match parse_pxl p allData with
  | .error e => .error e
  | .ok o =>
    match p.aeadDec (p.deriveKey o.mbytes) o.nonce o.encrypted with
    | none => .error .decryptFailed
    | some img => .ok (img, o.manifest)

/-- `converter.verify_pxl`: the same parse, then Ed25519 signature
check, decryption, re-chunking and Merkle comparison; every failure
(each `return False` and the enclosing `except`) yields `false`. -/
def verify_pxl (p : Prims) (allData : Bytes) (publicKey : Bytes) : Bool :=
  match parse_pxl p allData with
  | .error _ => false
  | .ok o =>
    if p.verifySig o.mbytes o.signature publicKey then
      match p.aeadDec (p.deriveKey o.mbytes) o.nonce o.encrypted with
      | none => false
      | some img =>
        match build_merkle_tree p (chunk_bytes img o.manifest.chunk_size) with
        | none => false
        | some (root, hashes) =>
          decide (hashes = o.manifest.chunk_hashes) &&
          decide (root = o.manifest.merkle_root)
    else false

/-- The manifest `pack_image` builds for payload `B` and metadata `M`. -/
def packManifest (p : Prims) (B : Bytes) (M : MetaMap) : Manifest :=
  { metadata := M
    chunk_hashes := (chunk_bytes B CHUNK_SIZE).map p.blake3Hex
    merkle_root := (merkleReduce p ((chunk_bytes B CHUNK_SIZE).map p.blake3Hex)).headD ""
    chunk_size := CHUNK_SIZE
    total_size := B.length
    num_chunks := (chunk_bytes B CHUNK_SIZE).length }

/-- The trailer layout with an arbitrary final segment (`FOOTER` for a
complete file, `[]` for one whose last 4 bytes were cut off).
Parenthesised right-to-left so the concrete fields peel off by
definitional reduction. -/
def trailerCore (mb sig nonce tail : Bytes) : Bytes :=
  MAGIC ++ ([VERSION] ++ (le32 mb.length ++ (mb ++ (sig ++
    ([nonce.length] ++ (nonce ++ tail))))))

/-- The authenticity trailer written after the encrypted image. -/
def trailerBytes (mb sig nonce : Bytes) : Bytes :=
  trailerCore mb sig nonce FOOTER

/-- `converter.pack_image` on in-memory inputs: chunk, build the Merkle
tree (raises — `none` — on an empty payload, before any output exists),
build and encode the manifest, derive the key, encrypt, sign, and
return the exact byte stream the Python code writes. -/
def pack_image (p : Prims) (imageBytes : Bytes) (metadata : MetaMap)
    (signingKey : Bytes) : Option Bytes :=
  let chunks := chunk_bytes imageBytes CHUNK_SIZE
  match build_merkle_tree p chunks with
  | none => none
  | some (root, hashes) =>
    let manifest : Manifest :=
      { metadata := metadata
        chunk_hashes := hashes
        merkle_root := root
        chunk_size := CHUNK_SIZE
        total_size := imageBytes.length
        num_chunks := chunks.length }
    let mb := p.encManifest manifest
    let key := p.deriveKey mb
    let nonce := p.randNonce
    let ct := p.aeadEnc key nonce imageBytes
    let sig := p.sign mb signingKey
    some (ct ++ MAGIC ++ [VERSION] ++ le32 mb.length ++ mb ++ sig ++
          [nonce.length] ++ nonce ++ FOOTER)

/-- Modelled from the spec (§4.3): one reduction pass described by
index — pair `(level[2i], level[2i+1])`, duplicating the last element
when `2i+1` runs past the end, and hash the concatenated hex strings.
Used to check the code's `merkleLevelUp` against the spec's wording. -/
def pairUpSpec (p : Prims) (level : List String) : List String :=
  (List.range ((level.length + 1) / 2)).map fun i =>
    p.blake3Hex (strBytes
      (level.getD (2 * i) "" ++ level.getD (min (2 * i + 1) (level.length - 1)) ""))

-- ## Reference canonical JSON rendering

/-- A JSON string literal (no escaping; callers only pass strings that
need none). -/
def jsonStr (s : String) : String := "\"" ++ s ++ "\""

def jsonStrList (l : List String) : String :=
  "[" ++ String.intercalate "," (l.map jsonStr) ++ "]"

def jsonMetaMap (m : MetaMap) : String :=
  "\x7b" ++ String.intercalate ","
    (m.map fun kv => jsonStr kv.1 ++ ":" ++ jsonStr kv.2) ++ "\x7d"

/-- `utils.canonical_json` on a manifest: `json.dumps(manifest,
sort_keys=True, separators=(",", ":"))`.  The six manifest keys appear
in their sorted order; metadata keys are assumed already sorted and all
strings escape-free, which reproduces the Python output byte-for-byte
on such inputs. -/
def canonicalJsonRef (m : Manifest) : String :=
  "\x7b\"chunk_hashes\":" ++ jsonStrList m.chunk_hashes ++
  ",\"chunk_size\":" ++ toString m.chunk_size ++
  ",\"merkle_root\":" ++ jsonStr m.merkle_root ++
  ",\"metadata\":" ++ jsonMetaMap m.metadata ++
  ",\"num_chunks\":" ++ toString m.num_chunks ++
  ",\"total_size\":" ++ toString m.total_size ++ "\x7d"

-- ## Concrete primitive instances for evaluating the code on files
-- (small executable stand-ins for the crypto/JSON primitives; each is
-- used to run the embedded converter on one explicit input)

/-- A manifest whose `num_chunks` and `total_size` disagree with its
own `chunk_hashes` and with the payload the file decrypts to. -/
def cx1M : Manifest :=
  { metadata := [], chunk_hashes := ["h"], merkle_root := "h"
    chunk_size := CHUNK_SIZE, total_size := 999, num_chunks := 5 }

def cx1P : Prims :=
  { blake3Hex := fun _ => "h"
    encManifest := fun _ => []
    decManifest := fun b => if b = [97] then some cx1M else none
    deriveKey := fun _ => []
    aeadEnc := fun _ _ pt => pt
    aeadDec := fun _ _ _ => some [0]
    sign := fun _ _ => []
    verifySig := fun _ _ _ => true
    randNonce := [] }

/-- A complete `.pxl` byte stream whose manifest is `cx1M`. -/
def cx1File : Bytes :=
  [7] ++ MAGIC ++ [1] ++ [1, 0, 0, 0] ++ [97] ++ List.replicate 64 0 ++
    [24] ++ List.replicate 24 0 ++ FOOTER

/-- Like `cx1P` but the manifest's hash list disagrees with the
recomputed one. -/
def w1M : Manifest :=
  { metadata := [], chunk_hashes := ["zz"], merkle_root := "h"
    chunk_size := CHUNK_SIZE, total_size := 1, num_chunks := 1 }

def w1P : Prims :=
  { blake3Hex := fun _ => "h"
    encManifest := fun _ => []
    decManifest := fun b => if b = [97] then some w1M else none
    deriveKey := fun _ => []
    aeadEnc := fun _ _ pt => pt
    aeadDec := fun _ _ _ => some [0]
    sign := fun _ _ => []
    verifySig := fun _ _ _ => true
    randNonce := [] }

def w1File : Bytes :=
  [7] ++ MAGIC ++ [1] ++ [1, 0, 0, 0] ++ [97] ++ List.replicate 64 0 ++
    [24] ++ List.replicate 24 0 ++ FOOTER

def w1O : ParseOut :=
  { encrypted := [7], version := 1, mbytes := [97], manifest := w1M
    signature := List.replicate 64 0, nonce := List.replicate 24 0 }

/-- Primitives with the reference JSON encoder, used to pack a file
whose metadata value contains the bytes "PXL!". -/
def cx2P : Prims :=
  { blake3Hex := fun _ => "aa"
    encManifest := fun m => strBytes (canonicalJsonRef m)
    decManifest := fun _ => none
    deriveKey := fun _ => []
    aeadEnc := fun _ _ pt => pt ++ List.replicate 16 0
    aeadDec := fun _ _ _ => none
    sign := fun _ _ => List.replicate 64 9
    verifySig := fun _ _ _ => true
    randNonce := List.replicate 24 7 }

def cx2File : Bytes := (pack_image cx2P [65] [("a", "PXL!")] [3]).getD []

/-- Benign primitives (no MAGIC reoccurrence, invertible toy AEAD and
JSON) for exercising the positive parse/round-trip theorems. -/
def w2M : Manifest :=
  { metadata := [], chunk_hashes := ["h"], merkle_root := "h"
    chunk_size := CHUNK_SIZE, total_size := 1, num_chunks := 1 }

def w2P : Prims :=
  { blake3Hex := fun _ => "h"
    encManifest := fun _ => [97]
    decManifest := fun b => if b = [97] then some w2M else none
    deriveKey := fun _ => List.replicate 32 0
    aeadEnc := fun _ _ pt => pt ++ List.replicate 16 0
    aeadDec := fun _ _ c => some (c.take (c.length - 16))
    sign := fun _ _ => List.replicate 64 0
    verifySig := fun _ _ _ => true
    randNonce := List.replicate 24 0 }

def w2File : Bytes := (pack_image w2P [5] [] [0]).getD []

def cx5P : Prims :=
  { blake3Hex := fun _ => "bb"
    encManifest := fun m => strBytes (canonicalJsonRef m)
    decManifest := fun _ => none
    deriveKey := fun _ => []
    aeadEnc := fun _ _ pt => pt ++ List.replicate 16 0
    aeadDec := fun _ _ c => some (c.take (c.length - 16))
    sign := fun _ _ => List.replicate 64 9
    verifySig := fun _ _ _ => true
    randNonce := List.replicate 24 7 }

def cx5File : Bytes := (pack_image cx5P [66, 67] [("a", "PXL!")] [0]).getD []

def w5M : Manifest :=
  { metadata := [], chunk_hashes := ["h"], merkle_root := "h"
    chunk_size := CHUNK_SIZE, total_size := 2, num_chunks := 1 }

def w5P : Prims :=
  { blake3Hex := fun _ => "h"
    encManifest := fun _ => [97]
    decManifest := fun b => if b = [97] then some w5M else none
    deriveKey := fun _ => List.replicate 32 0
    aeadEnc := fun _ _ pt => pt ++ List.replicate 16 0
    aeadDec := fun _ _ c => some (c.take (c.length - 16))
    sign := fun _ _ => List.replicate 64 0
    verifySig := fun _ _ _ => true
    randNonce := List.replicate 24 0 }

def w5File : Bytes := (pack_image w5P [8, 9] [] [0]).getD []

/-- Two primitive records identical on every field `read_pxl` touches
but with different Ed25519 primitives. -/
def w7aP : Prims :=
  { blake3Hex := fun _ => "h"
    encManifest := fun _ => [97]
    decManifest := fun b => if b = [97] then some w2M else none
    deriveKey := fun _ => List.replicate 32 0
    aeadEnc := fun _ _ pt => pt ++ List.replicate 16 0
    aeadDec := fun _ _ c => some (c.take (c.length - 16))
    sign := fun _ _ => List.replicate 64 0
    verifySig := fun _ _ _ => true
    randNonce := List.replicate 24 0 }

def w7bP : Prims :=
  { blake3Hex := fun _ => "h"
    encManifest := fun _ => [97]
    decManifest := fun b => if b = [97] then some w2M else none
    deriveKey := fun _ => List.replicate 32 0
    aeadEnc := fun _ _ pt => pt ++ List.replicate 16 0
    aeadDec := fun _ _ c => some (c.take (c.length - 16))
    sign := fun _ _ => List.replicate 64 3
    verifySig := fun _ _ _ => false
    randNonce := List.replicate 24 0 }

def w7File : Bytes :=
  [7] ++ MAGIC ++ [1] ++ [1, 0, 0, 0] ++ [97] ++ List.replicate 64 0 ++
    [24] ++ List.replicate 24 0 ++ FOOTER

def w8P : Prims :=
  { blake3Hex := fun _ => "h"
    encManifest := fun _ => [97]
    decManifest := fun b => if b = [97] then some w2M else none
    deriveKey := fun _ => List.replicate 32 0
    aeadEnc := fun _ _ pt => pt ++ List.replicate 16 0
    aeadDec := fun _ _ c => some (c.take (c.length - 16))
    sign := fun _ _ => List.replicate 64 0
    verifySig := fun _ _ _ => true
    randNonce := List.replicate 24 0 }

def w8File : Bytes := (pack_image w8P [9] [] [0]).getD []

def w9M : Manifest :=
  { metadata := [], chunk_hashes := ["h"], merkle_root := "h"
    chunk_size := CHUNK_SIZE, total_size := 1, num_chunks := 1 }

/-- Primitives with the reference JSON encoder (the manifest bytes are
a genuine printable JSON object ending in a closing brace) and
length-faithful toy AEAD/signature/nonce, used to exercise the
footer-truncation theorem on a concrete pack. -/
def w9P : Prims :=
  { blake3Hex := fun _ => "h"
    encManifest := fun m => strBytes (canonicalJsonRef m)
    decManifest := fun b =>
      if b = strBytes (canonicalJsonRef w9M) then some w9M else none
    deriveKey := fun _ => List.replicate 32 0
    aeadEnc := fun _ _ pt => pt ++ List.replicate 16 0
    aeadDec := fun _ _ c => some (c.take (c.length - 16))
    sign := fun _ _ => List.replicate 64 0
    verifySig := fun _ _ _ => true
    randNonce := List.replicate 24 0 }

def w9File : Bytes := (pack_image w9P [4] [] [0]).getD []

/-- Generic primitives for the Merkle witness. -/
def w6P : Prims :=
  { blake3Hex := fun b => toString b.length
    encManifest := fun _ => []
    decManifest := fun _ => none
    deriveKey := fun _ => []
    aeadEnc := fun _ _ pt => pt
    aeadDec := fun _ _ _ => none
    sign := fun _ _ => []
    verifySig := fun _ _ _ => false
    randNonce := [] }

-- ## Chunker lemmas

theorem chunkFuel_nil (f n : Nat) : chunkFuel f [] n = [] := by
  cases f <;> rfl

theorem chunkFuel_congr : ∀ (f g : Nat) (d : Bytes) (n : Nat),
    1 ≤ n → d.length ≤ f → d.length ≤ g → chunkFuel f d n = chunkFuel g d n := by
  intro f
  induction f with
  | zero =>
    intro g d n _ hf _
    have hd : d = [] := List.length_eq_zero.mp (Nat.le_zero.mp hf)
    subst hd; simp [chunkFuel_nil]
  | succ f ih =>
    intro g d n hn hf hg
    cases d with
    | nil => simp [chunkFuel_nil]
    | cons a t =>
      cases g with
      | zero => simp at hg
      | succ g =>
        simp only [chunkFuel]
        congr 1
        have hlen : ((a :: t).drop n).length ≤ f ∧ ((a :: t).drop n).length ≤ g := by
          simp only [List.length_drop, List.length_cons]
          simp only [List.length_cons] at hf hg
          omega
        exact ih g _ n hn hlen.1 hlen.2

theorem chunk_bytes_nil (n : Nat) : chunk_bytes [] n = [] := rfl

theorem chunk_bytes_cons (d : Bytes) (n : Nat) (hd : d ≠ []) (hn : 1 ≤ n) :
    chunk_bytes d n = d.take n :: chunk_bytes (d.drop n) n := by
  cases d with
  | nil => exact absurd rfl hd
  | cons a t =>
    show chunkFuel (t.length + 1) (a :: t) n = _
    simp only [chunkFuel]
    congr 1
    unfold chunk_bytes
    refine chunkFuel_congr t.length ((a :: t).drop n).length _ n hn ?_ le_rfl
    simp only [List.length_drop, List.length_cons]
    omega

theorem chunk_ne_nil (d : Bytes) (n : Nat) (hd : d ≠ []) (hn : 1 ≤ n) :
    chunk_bytes d n ≠ [] := by
  rw [chunk_bytes_cons d n hd hn]; simp

theorem chunkFuel_length : ∀ (f : Nat) (d : Bytes) (n : Nat), 1 ≤ n → d.length ≤ f →
    (chunkFuel f d n).length = (d.length + n - 1) / n := by
  intro f
  induction f with
  | zero =>
    intro d n hn hf
    have hd : d = [] := List.length_eq_zero.mp (Nat.le_zero.mp hf)
    subst hd
    simp [chunkFuel_nil, Nat.div_eq_of_lt (show n - 1 < n by omega)]
  | succ f ih =>
    intro d n hn hf
    cases d with
    | nil => simp [chunkFuel_nil, Nat.div_eq_of_lt (show n - 1 < n by omega)]
    | cons a t =>
      simp only [chunkFuel, List.length_cons]
      rw [ih _ n hn (by simp only [List.length_drop, List.length_cons] at hf ⊢; omega)]
      rw [List.length_drop, List.length_cons]
      rcases le_or_lt n (t.length + 1) with h | h
      · have e1 : t.length + 1 - n + n - 1 = t.length := by omega
        have e2 : t.length + 1 + n - 1 = t.length + n := by omega
        rw [e1, e2, Nat.add_div_right _ (show 0 < n by omega)]
      · have e1 : t.length + 1 - n = 0 := by omega
        have e2 : t.length + 1 + n - 1 = t.length + n := by omega
        rw [e1, e2, Nat.add_div_right _ (show 0 < n by omega)]
        rw [Nat.div_eq_of_lt (show 0 + n - 1 < n by omega),
            Nat.div_eq_of_lt (show t.length < n by omega)]

theorem chunk_bytes_length (d : Bytes) (n : Nat) (hn : 1 ≤ n) :
    (chunk_bytes d n).length = (d.length + n - 1) / n :=
  chunkFuel_length d.length d n hn le_rfl

theorem chunk_bytes_getD : ∀ (i : Nat) (d : Bytes) (n : Nat), 1 ≤ n →
    i < (chunk_bytes d n).length →
    (chunk_bytes d n).getD i [] = (d.drop (i * n)).take n := by
  intro i
  induction i with
  | zero =>
    intro d n hn hi
    cases d with
    | nil => simp [chunk_bytes_nil] at hi
    | cons a t =>
      rw [chunk_bytes_cons _ _ (by simp) hn]
      simp
  | succ i ih =>
    intro d n hn hi
    cases d with
    | nil => simp [chunk_bytes_nil] at hi
    | cons a t =>
      rw [chunk_bytes_cons _ _ (by simp) hn] at hi ⊢
      simp only [List.getD_cons_succ]
      rw [ih _ n hn (by simpa using hi), List.drop_drop]
      congr 2
      ring

theorem chunk_bytes_len_of_not_last : ∀ (i : Nat) (d : Bytes) (n : Nat), 1 ≤ n →
    i + 1 < (chunk_bytes d n).length →
    ((chunk_bytes d n).getD i []).length = n := by
  intro i
  induction i with
  | zero =>
    intro d n hn hi
    cases d with
    | nil => simp [chunk_bytes_nil] at hi
    | cons a t =>
      rw [chunk_bytes_cons _ _ (by simp) hn] at hi ⊢
      simp only [List.length_cons] at hi
      have h2 : chunk_bytes ((a :: t).drop n) n ≠ [] := by
        intro h; rw [h] at hi; simp at hi
      have h3 : (a :: t).drop n ≠ [] := fun h => h2 (h ▸ chunk_bytes_nil n)
      have h4 : n < (a :: t).length := by
        by_contra h
        simp only [List.length_cons, not_lt] at h
        refine h3 (List.drop_eq_nil_iff.mpr ?_)
        simp only [List.length_cons]
        omega
      simp only [List.getD_cons_zero, List.length_take]
      exact Nat.min_eq_left (Nat.le_of_lt h4)
  | succ i ih =>
    intro d n hn hi
    cases d with
    | nil => simp [chunk_bytes_nil] at hi
    | cons a t =>
      rw [chunk_bytes_cons _ _ (by simp) hn] at hi ⊢
      simp only [List.getD_cons_succ]
      exact ih _ n hn (by simpa using hi)

theorem chunk_bytes_last_len : ∀ (i : Nat) (d : Bytes) (n : Nat), 1 ≤ n →
    i + 1 = (chunk_bytes d n).length →
    1 ≤ ((chunk_bytes d n).getD i []).length ∧
      ((chunk_bytes d n).getD i []).length ≤ n := by
  intro i
  induction i with
  | zero =>
    intro d n hn hi
    cases d with
    | nil => simp [chunk_bytes_nil] at hi
    | cons a t =>
      rw [chunk_bytes_cons _ _ (by simp) hn] at hi ⊢
      simp only [List.length_cons] at hi
      have h2 : (chunk_bytes ((a :: t).drop n) n).length = 0 := by omega
      have h3 : (a :: t).drop n = [] := by
        by_contra h
        exact chunk_ne_nil _ _ h hn (List.length_eq_zero.mp h2)
      have h4 : (a :: t).length ≤ n := by
        have := List.drop_eq_nil_iff.mp h3
        omega
      simp only [List.getD_cons_zero, List.length_take]
      rw [Nat.min_eq_right h4]
      simp only [List.length_cons] at h4 ⊢
      omega
  | succ i ih =>
    intro d n hn hi
    cases d with
    | nil => simp [chunk_bytes_nil] at hi
    | cons a t =>
      rw [chunk_bytes_cons _ _ (by simp) hn] at hi ⊢
      simp only [List.getD_cons_succ]
      exact ih _ n hn (by simpa using hi)

-- ## Merkle lemmas

theorem merkleLevelUp_length (p : Prims) : ∀ l : List String,
    (merkleLevelUp p l).length = (l.length + 1) / 2
  | [] => by simp [merkleLevelUp]
  | [_] => by simp [merkleLevelUp]
  | _ :: _ :: rest => by
    simp only [merkleLevelUp, List.length_cons]
    rw [merkleLevelUp_length p rest]
    omega

theorem merkleLevelUp_eq_pairUpSpec (p : Prims) : ∀ l : List String,
    merkleLevelUp p l = pairUpSpec p l
  | [] => by simp [merkleLevelUp, pairUpSpec]
  | [x] => by simp [merkleLevelUp, pairUpSpec, List.range_succ]
  | x :: y :: rest => by
    have ih := merkleLevelUp_eq_pairUpSpec p rest
    simp only [merkleLevelUp] at ih ⊢
    rw [ih]
    simp only [pairUpSpec, List.length_cons]
    have hk : (rest.length + 1 + 1 + 1) / 2 = (rest.length + 1) / 2 + 1 := by omega
    rw [hk, List.range_succ_eq_map]
    simp only [List.map_cons, List.map_map]
    congr 1
    · have hmin : min (2 * 0 + 1) (rest.length + 1 + 1 - 1) = 1 := by omega
      rw [hmin]
      simp
    · apply List.map_congr_left
      intro i hi
      rw [List.mem_range] at hi
      have h2i : 2 * i + 1 ≤ rest.length := by omega
      simp only [Function.comp_apply]
      have e1 : 2 * Nat.succ i = 2 * i + 1 + 1 := by omega
      rw [e1]
      have e2 : min (2 * i + 1 + 1 + 1) (rest.length + 1 + 1 - 1)
          = min (2 * i + 1) (rest.length - 1) + 1 + 1 := by omega
      rw [e2]
      simp only [List.getD_cons_succ]

theorem reduceFuel_nil (p : Prims) (g : Nat) : reduceFuel p g [] = [] := by
  cases g <;> simp [reduceFuel]

theorem reduceFuel_congr : ∀ (f g : Nat) (l : List String) (p : Prims),
    l.length ≤ f → l.length ≤ g → reduceFuel p f l = reduceFuel p g l := by
  intro f
  induction f with
  | zero =>
    intro g l p hf _
    have hl : l = [] := List.length_eq_zero.mp (Nat.le_zero.mp hf)
    subst hl
    simp [reduceFuel_nil]
  | succ f ih =>
    intro g l p hf hg
    by_cases h1 : l.length ≤ 1
    · cases g with
      | zero => simp only [reduceFuel]; rw [if_pos h1]
      | succ g => simp only [reduceFuel]; rw [if_pos h1, if_pos h1]
    · cases g with
      | zero => omega
      | succ g =>
        simp only [reduceFuel]
        rw [if_neg h1, if_neg h1]
        have hlen : (merkleLevelUp p l).length = (l.length + 1) / 2 :=
          merkleLevelUp_length p l
        exact ih g _ p (by omega) (by omega)

theorem reduceFuel_length_one : ∀ (f : Nat) (l : List String) (p : Prims),
    l ≠ [] → l.length ≤ f → (reduceFuel p f l).length = 1 := by
  intro f
  induction f with
  | zero =>
    intro l p hne hf
    exact absurd (List.length_eq_zero.mp (Nat.le_zero.mp hf)) hne
  | succ f ih =>
    intro l p hne hf
    by_cases h1 : l.length ≤ 1
    · simp only [reduceFuel]
      rw [if_pos h1]
      have : 0 < l.length := List.length_pos.mpr hne
      omega
    · simp only [reduceFuel]
      rw [if_neg h1]
      have hlen : (merkleLevelUp p l).length = (l.length + 1) / 2 :=
        merkleLevelUp_length p l
      refine ih _ p ?_ (by omega)
      refine List.length_pos.mp ?_
      omega

theorem merkleReduce_singleton (p : Prims) (x : String) :
    merkleReduce p [x] = [x] := by
  simp [merkleReduce, reduceFuel]

theorem merkleReduce_length_one (p : Prims) (l : List String) (hne : l ≠ []) :
    (merkleReduce p l).length = 1 :=
  reduceFuel_length_one l.length l p hne le_rfl

theorem merkleReduce_step (p : Prims) (l : List String) (h2 : 2 ≤ l.length) :
    merkleReduce p l = merkleReduce p (merkleLevelUp p l) := by
  obtain ⟨k, hk⟩ : ∃ k, l.length = k + 1 := ⟨l.length - 1, by omega⟩
  unfold merkleReduce
  rw [hk]
  simp only [reduceFuel]
  rw [if_neg (by omega)]
  have hlen : (merkleLevelUp p l).length = (l.length + 1) / 2 :=
    merkleLevelUp_length p l
  exact reduceFuel_congr k (merkleLevelUp p l).length _ p (by omega) le_rfl

theorem build_merkle_tree_of_ne_nil (p : Prims) (chunks : List Bytes)
    (h : chunks ≠ []) :
    build_merkle_tree p chunks =
      some ((merkleReduce p (chunks.map p.blake3Hex)).headD "",
            chunks.map p.blake3Hex) := by
  rw [build_merkle_tree, if_neg]
  simp [List.isEmpty_iff, h]

-- ## Locating the anchor

theorem magicAt_append (ct t : Bytes) (i : Nat) (h : ct.length ≤ i) :
    magicAt (ct ++ t) i = magicAt t (i - ct.length) := by
  unfold magicAt
  have hdrop : (ct ++ t).drop i = t.drop (i - ct.length) := by
    conv_lhs => rw [show i = ct.length + (i - ct.length) by omega]
    rw [List.drop_append]
  rw [hdrop]

theorem magicAt_ge_len (t : Bytes) (j : Nat) (h : t.length ≤ j) :
    magicAt t j = false := by
  unfold magicAt
  rw [List.drop_eq_nil_iff.mpr h]
  simp [MAGIC]

theorem noLaterMagic_spec (t : Bytes) (hnl : noLaterMagic t = true)
    (j : Nat) (hj : 1 ≤ j) : magicAt t j = false := by
  by_cases hlt : j < t.length
  · have h := List.all_eq_true.mp hnl j (List.mem_range.mpr hlt)
    simp only [Bool.or_eq_true, decide_eq_true_eq, Bool.not_eq_true'] at h
    rcases h with h | h
    · exact absurd h (by omega)
    · exact h
  · exact magicAt_ge_len t j (by omega)

theorem range_filter_getLast (n : Nat) (f : Nat → Bool) (m : Nat)
    (hm : m < n) (hfm : f m = true) (hlater : ∀ i, m < i → f i = false) :
    ((List.range n).filter f).getLast? = some m := by
  induction n with
  | zero => omega
  | succ n ih =>
    rw [List.range_succ, List.filter_append]
    rcases Nat.lt_or_ge m n with h | h
    · have hfn : f n = false := hlater n h
      have hone : List.filter f [n] = [] := by
        simp [List.filter, hfn]
      rw [hone, List.append_nil]
      exact ih h
    · have hmn : m = n := by omega
      subst hmn
      have hone : List.filter f [m] = [m] := by
        simp [List.filter, hfm]
      rw [hone]
      exact List.getLast?_concat _

theorem rfindMagic_anchor (ct t : Bytes) (h4 : t.take 4 = MAGIC)
    (hlen : 4 ≤ t.length) (hnl : noLaterMagic t = true) :
    rfindMagic (ct ++ t) = some ct.length := by
  unfold rfindMagic
  refine range_filter_getLast _ _ ct.length ?_ ?_ ?_
  · rw [List.length_append]; omega
  · show magicAt (ct ++ t) ct.length = true
    unfold magicAt
    rw [List.drop_left]
    simp [h4]
  · intro i hi
    show magicAt (ct ++ t) i = false
    rw [magicAt_append ct t i (by omega)]
    exact noLaterMagic_spec t hnl _ (by omega)

-- ## Field extraction from a well-shaped trailer

theorem readLE32_le32 (n : Nat) (r : Bytes) (h : n < 2 ^ 32) :
    readLE32 (le32 n ++ r) = some n := by
  have e : readLE32 (le32 n ++ r)
      = some (n % 256 + 256 * (n / 256 % 256) + 65536 * (n / 65536 % 256)
              + 16777216 * (n / 16777216 % 256)) := rfl
  rw [e, Option.some.injEq]
  omega

theorem parse_shape (p : Prims) (ct mb sig nonce tail : Bytes) (m : Manifest)
    (hdec : p.decManifest mb = some m)
    (hsig : sig.length = 64)
    (hml : mb.length < 2 ^ 32)
    (hrfind : rfindMagic (ct ++ trailerCore mb sig nonce tail) = some ct.length) :
    parse_pxl p (ct ++ trailerCore mb sig nonce tail)
      = if tail.take 4 = FOOTER
        then .ok ⟨ct, VERSION, mb, m, sig, nonce⟩
        else .error .badFooter := by
  have hEnc : (ct ++ trailerCore mb sig nonce tail).take ct.length = ct :=
    List.take_left ct _
  have hAb : (ct ++ trailerCore mb sig nonce tail).drop ct.length =
      trailerCore mb sig nonce tail := List.drop_left ct _
  have h1 : (trailerCore mb sig nonce tail).take 4 = MAGIC := rfl
  have h2 : readByte ((trailerCore mb sig nonce tail).drop 4) = some VERSION := rfl
  have h3 : (trailerCore mb sig nonce tail).drop 5
      = le32 mb.length ++ (mb ++ (sig ++ ([nonce.length] ++ (nonce ++ tail)))) := rfl
  have h4' : readLE32 ((trailerCore mb sig nonce tail).drop 5) = some mb.length := by
    rw [h3]; exact readLE32_le32 mb.length _ hml
  have h9 : (trailerCore mb sig nonce tail).drop 9
      = mb ++ (sig ++ ([nonce.length] ++ (nonce ++ tail))) := rfl
  have hmb : ((trailerCore mb sig nonce tail).drop 9).take mb.length = mb := by
    rw [h9]; exact List.take_left mb _
  have hr2 : ((trailerCore mb sig nonce tail).drop 9).drop mb.length
      = sig ++ ([nonce.length] ++ (nonce ++ tail)) := by
    rw [h9]; exact List.drop_left mb _
  have hsg : (sig ++ ([nonce.length] ++ (nonce ++ tail))).take 64 = sig := by
    rw [← hsig]; exact List.take_left sig _
  have hr3 : (sig ++ ([nonce.length] ++ (nonce ++ tail))).drop 64
      = [nonce.length] ++ (nonce ++ tail) := by
    rw [← hsig]; exact List.drop_left sig _
  have hnb : readByte ([nonce.length] ++ (nonce ++ tail)) = some nonce.length := rfl
  have hr4 : ([nonce.length] ++ (nonce ++ tail)).drop 1 = nonce ++ tail := rfl
  have hnn : (nonce ++ tail).take nonce.length = nonce := List.take_left nonce tail
  have hr5 : (nonce ++ tail).drop nonce.length = tail := List.drop_left nonce tail
  simp only [parse_pxl, hrfind, hEnc, hAb, h1, h2, h4', hmb, hdec, hr2, hsg,
    hr3, hnb, hr4, hnn, hr5]
  simp

-- ## The bytes written by pack_image

theorem pack_eq (p : Prims) (B : Bytes) (M : MetaMap) (k : Bytes) (hB : B ≠ []) :
    pack_image p B M k =
      some (p.aeadEnc (p.deriveKey (p.encManifest (packManifest p B M))) p.randNonce B
            ++ trailerBytes (p.encManifest (packManifest p B M))
                 (p.sign (p.encManifest (packManifest p B M)) k) p.randNonce) := by
  have hchunks : chunk_bytes B CHUNK_SIZE ≠ [] :=
    chunk_ne_nil B CHUNK_SIZE hB (by norm_num [CHUNK_SIZE])
  simp only [pack_image]
  rw [build_merkle_tree_of_ne_nil p _ hchunks]
  simp only [packManifest, trailerBytes, trailerCore]
  simp [List.append_assoc]

theorem pack_none_of_nil (p : Prims) (M : MetaMap) (k : Bytes) :
    pack_image p [] M k = none := rfl

theorem trailerCore_length (mb sig nonce tail : Bytes) :
    (trailerCore mb sig nonce tail).length
      = 9 + mb.length + sig.length + 1 + nonce.length + tail.length := by
  simp [trailerCore, le32, MAGIC, List.length_append]
  omega

theorem trailerCore_split (mb sig nonce : Bytes) :
    trailerCore mb sig nonce FOOTER = trailerCore mb sig nonce [] ++ FOOTER := by
  simp [trailerCore, List.append_assoc]

theorem trailer_take_drop_footer (mb sig nonce : Bytes) :
    (trailerCore mb sig nonce FOOTER).take
        ((trailerCore mb sig nonce FOOTER).length - 4)
      = trailerCore mb sig nonce [] := by
  rw [trailerCore_split]
  have hlen : (trailerCore mb sig nonce [] ++ FOOTER).length - 4
      = (trailerCore mb sig nonce []).length := by
    simp [List.length_append, FOOTER]
  rw [hlen]
  exact List.take_left _ _

theorem file_truncate (ct t : Bytes) (h4 : 4 ≤ t.length) :
    (ct ++ t).take ((ct ++ t).length - 4) = ct ++ t.take (t.length - 4) := by
  have e : (ct ++ t).length - 4 = ct.length + (t.length - 4) := by
    simp only [List.length_append]; omega
  rw [e, List.take_append]

-- ## Unfolding the readers

theorem read_pxl_of_parse_ok (p : Prims) (d : Bytes) (o : ParseOut)
    (hp : parse_pxl p d = .ok o) :
    read_pxl p d =
      match p.aeadDec (p.deriveKey o.mbytes) o.nonce o.encrypted with
      | none => .error .decryptFailed
      | some img => .ok (img, o.manifest) := by
  unfold read_pxl
  rw [hp]

theorem read_pxl_of_parse_error (p : Prims) (d : Bytes) (e : ReadErr)
    (hp : parse_pxl p d = .error e) : read_pxl p d = .error e := by
  unfold read_pxl
  rw [hp]

theorem verify_pxl_of_parse_error (p : Prims) (d pk : Bytes) (e : ReadErr)
    (hp : parse_pxl p d = .error e) : verify_pxl p d pk = false := by
  unfold verify_pxl
  rw [hp]

set_option maxRecDepth 4096 in
theorem verify_pxl_true_iff (p : Prims) (d pk : Bytes) :
    verify_pxl p d pk = true ↔
      ∃ o img root hashes,
        parse_pxl p d = .ok o ∧
        p.verifySig o.mbytes o.signature pk = true ∧
        p.aeadDec (p.deriveKey o.mbytes) o.nonce o.encrypted = some img ∧
        build_merkle_tree p (chunk_bytes img o.manifest.chunk_size)
          = some (root, hashes) ∧
        hashes = o.manifest.chunk_hashes ∧ root = o.manifest.merkle_root := by
  unfold verify_pxl
  cases hp : parse_pxl p d with
  | error e => simp [hp]
  | ok o =>
    cases hs : p.verifySig o.mbytes o.signature pk with
    | false => simp [hp, hs]
    | true =>
      cases hd : p.aeadDec (p.deriveKey o.mbytes) o.nonce o.encrypted with
      | none => simp [hp, hs, hd]
      | some img =>
        cases hb : build_merkle_tree p (chunk_bytes img o.manifest.chunk_size) with
        | none => simp [hp, hs, hd, hb]
        | some rp =>
          obtain ⟨root, hashes⟩ := rp
          simp [hp, hs, hd, hb, Bool.and_eq_true, decide_eq_true_eq]
          constructor
          · rintro ⟨h1, h2⟩
            exact ⟨root, hashes, ⟨rfl, rfl⟩, h1, h2⟩
          · rintro ⟨x, x1, ⟨hx, hx1⟩, h1, h2⟩
            subst hx
            subst hx1
            exact ⟨h1, h2⟩

theorem verify_false_of_mismatch (p : Prims) (d pk : Bytes) (o : ParseOut)
    (img : Bytes) (root : String) (hashes : List String)
    (hp : parse_pxl p d = .ok o)
    (hd : p.aeadDec (p.deriveKey o.mbytes) o.nonce o.encrypted = some img)
    (hb : build_merkle_tree p (chunk_bytes img o.manifest.chunk_size)
          = some (root, hashes))
    (hne : hashes ≠ o.manifest.chunk_hashes ∨ root ≠ o.manifest.merkle_root) :
    verify_pxl p d pk = false := by
  cases hv : verify_pxl p d pk
  · rfl
  · exfalso
    obtain ⟨o', img', root', hashes', hp', _, hd', hb', he1, he2⟩ :=
      (verify_pxl_true_iff p d pk).mp hv
    rw [hp] at hp'
    have ho : o = o' := by injection hp'
    subst ho
    rw [hd] at hd'
    have hi : img = img' := by injection hd'
    subst hi
    rw [hb] at hb'
    injection hb' with h2
    have hr1 : root = root' := congrArg Prod.fst h2
    have hr2 : hashes = hashes' := congrArg Prod.snd h2
    subst hr1; subst hr2
    rcases hne with h | h
    · exact h he1
    · exact h he2

-- ## Parsing a packed file

theorem parse_of_pack (p : Prims) (ct mb sig nonce : Bytes) (m : Manifest)
    (hdec : p.decManifest mb = some m)
    (hsig : sig.length = 64)
    (hml : mb.length < 2 ^ 32)
    (hnl : noLaterMagic (trailerBytes mb sig nonce) = true) :
    rfindMagic (ct ++ trailerBytes mb sig nonce) = some ct.length ∧
    parse_pxl p (ct ++ trailerBytes mb sig nonce)
      = .ok ⟨ct, VERSION, mb, m, sig, nonce⟩ := by
  have h4 : (trailerBytes mb sig nonce).take 4 = MAGIC := rfl
  have hlen : 4 ≤ (trailerBytes mb sig nonce).length := by
    rw [trailerBytes, trailerCore_length]
    omega
  have hrf := rfindMagic_anchor ct _ h4 hlen hnl
  refine ⟨hrf, ?_⟩
  have h := parse_shape p ct mb sig nonce FOOTER m hdec hsig hml hrf
  rw [if_pos (show FOOTER.take 4 = FOOTER from rfl)] at h
  exact h

-- ## Any parse of a footer-truncated pack fails structurally
--
-- After the footer is cut off, `rfind` may anchor either at the true
-- anchor (then the footer check fails) or at a MAGIC occurrence later
-- in the trailer.  The bytes after the anchor region are the manifest
-- (printable JSON, byte values 32..126, ending in the closing brace
-- 125) followed by signature, nonce-length byte and nonce; when those
-- last three fields contain no MAGIC occurrence, every later anchor
-- has its version byte inside the manifest, which can never be 0x01.

theorem noMagicIn_spec (s : Bytes) (h : noMagicIn s = true) (j : Nat) :
    magicAt s j = false := by
  by_cases hlt : j < s.length
  · have hj := List.all_eq_true.mp h j (List.mem_range.mpr hlt)
    simpa using hj
  · exact magicAt_ge_len s j (by omega)

theorem le_getLast_of_pairwise : ∀ (l : List Nat), l.Pairwise (· < ·) →
    ∀ q, l.getLast? = some q → ∀ x ∈ l, x ≤ q := by
  intro l
  induction l with
  | nil =>
    intro _ q hq
    simp at hq
  | cons a rest ih =>
    intro hp q hq x hx
    cases rest with
    | nil =>
      simp only [List.getLast?_singleton, Option.some.injEq] at hq
      rcases List.mem_singleton.mp hx with rfl
      omega
    | cons b rest2 =>
      rw [List.getLast?_cons_cons] at hq
      rcases List.mem_cons.mp hx with rfl | h
      · have hqmem : q ∈ b :: rest2 := by
          rw [List.getLast?_eq_getElem?] at hq
          obtain ⟨hlt, hg⟩ := List.getElem?_eq_some.mp hq
          exact hg ▸ List.getElem_mem hlt
        have := (List.pairwise_cons.mp hp).1 q hqmem
        omega
      · exact ih (List.pairwise_cons.mp hp).2 q hq x h

theorem rfindMagic_last (l : Bytes) (m : Nat) (hm : m < l.length)
    (hmag : magicAt l m = true) :
    ∃ q, rfindMagic l = some q ∧ m ≤ q ∧ magicAt l q = true := by
  have hmem : m ∈ (List.range l.length).filter (fun i => magicAt l i) := by
    rw [List.mem_filter, List.mem_range]
    exact ⟨hm, hmag⟩
  have hne : (List.range l.length).filter (fun i => magicAt l i) ≠ [] :=
    List.ne_nil_of_mem hmem
  obtain ⟨q, hq⟩ := Option.isSome_iff_exists.mp (List.getLast?_isSome.mpr hne)
  refine ⟨q, hq, ?_, ?_⟩
  · exact le_getLast_of_pairwise _
      ((List.pairwise_lt_range l.length).filter _) q hq m hmem
  · have hqmem : q ∈ (List.range l.length).filter (fun i => magicAt l i) := by
      rw [List.getLast?_eq_getElem?] at hq
      obtain ⟨hlt, hg⟩ := List.getElem?_eq_some.mp hq
      exact hg ▸ List.getElem_mem hlt
    exact (List.mem_filter.mp hqmem).2

theorem readByte_drop (l : Bytes) (i : Nat) : readByte (l.drop i) = l[i]? := by
  unfold readByte
  rcases hd : l.drop i with _ | ⟨a, rest⟩
  · have hlen : l.length ≤ i := List.drop_eq_nil_iff.mp hd
    rw [List.getElem?_eq_none hlen]
    rfl
  · have h0 : (l.drop i)[0]? = l[i]? := by
      rw [List.getElem?_drop]
      norm_num
    rw [hd] at h0
    simp only [List.getElem?_cons_zero] at h0
    rw [← h0]
    rfl

theorem magicAt_byte0 (l : Bytes) (j : Nat) (h : magicAt l j = true) :
    l[j]? = some 80 := by
  unfold magicAt at h
  rw [decide_eq_true_eq] at h
  have h1 : ((l.drop j).take 4)[0]? = some 80 := by rw [h]; rfl
  rw [List.getElem?_take, if_pos (by omega : (0 : Nat) < 4),
    List.getElem?_drop] at h1
  simpa using h1

theorem magicAt_byte1 (l : Bytes) (j : Nat) (h : magicAt l j = true) :
    l[j + 1]? = some 88 := by
  unfold magicAt at h
  rw [decide_eq_true_eq] at h
  have h1 : ((l.drop j).take 4)[1]? = some 88 := by rw [h]; rfl
  rw [List.getElem?_take, if_pos (by omega : (1 : Nat) < 4),
    List.getElem?_drop] at h1
  exact h1

theorem magicAt_byte2 (l : Bytes) (j : Nat) (h : magicAt l j = true) :
    l[j + 2]? = some 76 := by
  unfold magicAt at h
  rw [decide_eq_true_eq] at h
  have h1 : ((l.drop j).take 4)[2]? = some 76 := by rw [h]; rfl
  rw [List.getElem?_take, if_pos (by omega : (2 : Nat) < 4),
    List.getElem?_drop] at h1
  exact h1

theorem magicAt_byte3 (l : Bytes) (j : Nat) (h : magicAt l j = true) :
    l[j + 3]? = some 33 := by
  unfold magicAt at h
  rw [decide_eq_true_eq] at h
  have h1 : ((l.drop j).take 4)[3]? = some 33 := by rw [h]; rfl
  rw [List.getElem?_take, if_pos (by omega : (3 : Nat) < 4),
    List.getElem?_drop] at h1
  exact h1

theorem trailerTrunc_getElem_mb (mb sig nonce : Bytes) (i : Nat)
    (h9 : 9 ≤ i) (hmb : i ≤ 8 + mb.length) :
    (trailerCore mb sig nonce [])[i]? = mb[i - 9]? := by
  have h1 : (trailerCore mb sig nonce []).drop 9
      = mb ++ (sig ++ ([nonce.length] ++ (nonce ++ []))) := rfl
  have h2 : (trailerCore mb sig nonce ([] : Bytes))[i]?
      = ((trailerCore mb sig nonce []).drop 9)[i - 9]? := by
    rw [List.getElem?_drop]
    congr 1
    omega
  rw [h2, h1, List.getElem?_append_left (by omega : i - 9 < mb.length)]

theorem trailerTrunc_drop_sig (mb sig nonce : Bytes) :
    (trailerCore mb sig nonce []).drop (9 + mb.length)
      = sig ++ [nonce.length] ++ nonce := by
  have h1 : (trailerCore mb sig nonce []).drop 9
      = mb ++ (sig ++ ([nonce.length] ++ (nonce ++ []))) := rfl
  have h2 : (trailerCore mb sig nonce []).drop (9 + mb.length)
      = ((trailerCore mb sig nonce []).drop 9).drop mb.length := by
    rw [List.drop_drop]
  rw [h2, h1, List.drop_left]
  simp [List.append_assoc]

theorem trailerBytes_take (mb sig nonce : Bytes) :
    (trailerBytes mb sig nonce).take ((trailerBytes mb sig nonce).length - 4)
      = trailerCore mb sig nonce [] :=
  trailer_take_drop_footer mb sig nonce

/-- Classify a MAGIC occurrence at offset `j ≥ 1` in a footer-stripped
trailer: it cannot overlap the anchor region (those bytes are fixed),
cannot touch the manifest's final closing brace, and cannot lie in the
signature/nonce fields, so it sits at `5 ≤ j ≤ 4 + |mb|` — which
places its version byte inside the manifest. -/
theorem trailer_occurrence_in_mb (mb sig nonce : Bytes) (j : Nat)
    (hmb4 : 4 ≤ mb.length)
    (hlast : mb.getLast? = some 125)
    (hsn : noMagicIn (sig ++ [nonce.length] ++ nonce) = true)
    (hj : 1 ≤ j)
    (hmag : magicAt (trailerCore mb sig nonce []) j = true) :
    5 ≤ j ∧ j ≤ 4 + mb.length := by
  have hnot_hi : j < 9 + mb.length := by
    by_contra hge
    push_neg at hge
    have hseg : magicAt (sig ++ [nonce.length] ++ nonce)
        (j - (9 + mb.length)) = true := by
      unfold magicAt at hmag ⊢
      rw [decide_eq_true_eq] at hmag
      rw [decide_eq_true_eq, ← trailerTrunc_drop_sig mb sig nonce,
        List.drop_drop]
      rw [show 9 + mb.length + (j - (9 + mb.length)) = j from by omega]
      exact hmag
    have hf := noMagicIn_spec (sig ++ [nonce.length] ++ nonce) hsn
      (j - (9 + mb.length))
    rw [hf] at hseg
    exact Bool.false_ne_true hseg
  have hmblast : (trailerCore mb sig nonce ([] : Bytes))[8 + mb.length]?
      = some 125 := by
    rw [trailerTrunc_getElem_mb mb sig nonce _ (by omega) (by omega)]
    rw [show 8 + mb.length - 9 = mb.length - 1 from by omega,
      ← List.getLast?_eq_getElem?]
    exact hlast
  have hlow : ¬ j ≤ 4 := by
    intro hle
    have hb0 := magicAt_byte0 _ j hmag
    interval_cases j
    · rw [show (trailerCore mb sig nonce ([] : Bytes))[1]? = some 88 from rfl]
        at hb0
      exact absurd hb0 (by decide)
    · rw [show (trailerCore mb sig nonce ([] : Bytes))[2]? = some 76 from rfl]
        at hb0
      exact absurd hb0 (by decide)
    · rw [show (trailerCore mb sig nonce ([] : Bytes))[3]? = some 33 from rfl]
        at hb0
      exact absurd hb0 (by decide)
    · rw [show (trailerCore mb sig nonce ([] : Bytes))[4]? = some 1 from rfl]
        at hb0
      exact absurd hb0 (by decide)
  have hmid : ¬ 5 + mb.length ≤ j := by
    intro hge5
    have h4cases : j = 5 + mb.length ∨ j = 6 + mb.length ∨
        j = 7 + mb.length ∨ j = 8 + mb.length := by omega
    rcases h4cases with rfl | rfl | rfl | rfl
    · have hb := magicAt_byte3 _ _ hmag
      rw [show 5 + mb.length + 3 = 8 + mb.length from by omega, hmblast] at hb
      exact absurd hb (by decide)
    · have hb := magicAt_byte2 _ _ hmag
      rw [show 6 + mb.length + 2 = 8 + mb.length from by omega, hmblast] at hb
      exact absurd hb (by decide)
    · have hb := magicAt_byte1 _ _ hmag
      rw [show 7 + mb.length + 1 = 8 + mb.length from by omega, hmblast] at hb
      exact absurd hb (by decide)
    · have hb := magicAt_byte0 _ _ hmag
      rw [hmblast] at hb
      exact absurd hb (by decide)
  omega

/-- Parsing from a non-anchor MAGIC occurrence whose version byte is
not `0x01` fails with the version error. -/
theorem parse_badVersion (p : Prims) (ct t : Bytes) (j v : Nat)
    (hrfind : rfindMagic (ct ++ t) = some (ct.length + j))
    (hmag : magicAt t j = true)
    (hv4 : t[j + 4]? = some v)
    (hvne : ¬ v = VERSION) :
    parse_pxl p (ct ++ t) = .error .badVersion := by
  have hab : (ct ++ t).drop (ct.length + j) = t.drop j := by
    rw [List.drop_append]
  have hm4 : (t.drop j).take 4 = MAGIC := by
    have h := hmag
    unfold magicAt at h
    rwa [decide_eq_true_eq] at h
  have hrb : readByte ((t.drop j).drop 4) = some v := by
    rw [List.drop_drop, readByte_drop]
    exact hv4
  simp only [parse_pxl, hrfind, hab, hm4, hrb]
  simp [hvne]

/-- Cutting the footer off a packed file leaves a parse that fails
structurally: with the version error when `rfind` anchors on a MAGIC
occurrence inside the (printable JSON) manifest, or with the footer
error when it anchors on the true anchor. -/
theorem truncated_parse_structural (p : Prims) (ct mb sig nonce : Bytes)
    (m : Manifest)
    (hdec : p.decManifest mb = some m)
    (hsig : sig.length = 64)
    (hml : mb.length < 2 ^ 32)
    (hmb4 : 4 ≤ mb.length)
    (hlast : mb.getLast? = some 125)
    (hprint : ∀ b ∈ mb, 32 ≤ b ∧ b ≤ 126)
    (hsn : noMagicIn (sig ++ [nonce.length] ++ nonce) = true) :
    parse_pxl p ((ct ++ trailerBytes mb sig nonce).take
        ((ct ++ trailerBytes mb sig nonce).length - 4))
      = .error .badVersion ∨
    parse_pxl p ((ct ++ trailerBytes mb sig nonce).take
        ((ct ++ trailerBytes mb sig nonce).length - 4))
      = .error .badFooter := by
  have h4T : 4 ≤ (trailerBytes mb sig nonce).length := by
    rw [trailerBytes, trailerCore_length]
    omega
  rw [file_truncate ct _ h4T, trailerBytes_take]
  have hanchor : magicAt (ct ++ trailerCore mb sig nonce []) ct.length
      = true := by
    unfold magicAt
    rw [List.drop_left]
    simp only [decide_eq_true_eq]
    rfl
  have hlenF : ct.length < (ct ++ trailerCore mb sig nonce []).length := by
    rw [List.length_append, trailerCore_length]
    omega
  obtain ⟨q, hq, hqge, hqmag⟩ := rfindMagic_last _ _ hlenF hanchor
  rcases Nat.eq_or_lt_of_le hqge with heq | hlt
  · right
    subst heq
    have h := parse_shape p ct mb sig nonce [] m hdec hsig hml hq
    rw [if_neg (by simp [FOOTER])] at h
    exact h
  · left
    have hmagt : magicAt (trailerCore mb sig nonce []) (q - ct.length)
        = true := by
      rw [← magicAt_append ct _ q (by omega)]
      exact hqmag
    obtain ⟨h5, hle⟩ := trailer_occurrence_in_mb mb sig nonce (q - ct.length)
      hmb4 hlast hsn (by omega) hmagt
    have hidx : (trailerCore mb sig nonce ([] : Bytes))[q - ct.length + 4]?
        = mb[q - ct.length + 4 - 9]? :=
      trailerTrunc_getElem_mb mb sig nonce _ (by omega) (by omega)
    rcases hmv : mb[q - ct.length + 4 - 9]? with _ | v
    · exfalso
      rw [List.getElem?_eq_none_iff] at hmv
      omega
    · have hmem : v ∈ mb := by
        obtain ⟨hlt3, hgeq⟩ := List.getElem?_eq_some.mp hmv
        exact hgeq ▸ List.getElem_mem hlt3
      have h32 := (hprint v hmem).1
      refine parse_badVersion p ct _ (q - ct.length) v ?_ hmagt ?_ ?_
      · rw [show ct.length + (q - ct.length) = q from by omega]
        exact hq
      · rw [hidx]
        exact hmv
      · intro hveq
        rw [hveq] at h32
        norm_num [VERSION] at h32

-- ## read_pxl only looks at decManifest, deriveKey and aeadDec

theorem parse_pxl_ext (p q : Prims) (d : Bytes)
    (h1 : p.decManifest = q.decManifest) :
    parse_pxl p d = parse_pxl q d := by
  unfold parse_pxl
  rw [h1]

theorem read_pxl_ext (p q : Prims) (d : Bytes)
    (h1 : p.decManifest = q.decManifest)
    (h2 : p.deriveKey = q.deriveKey)
    (h3 : p.aeadDec = q.aeadDec) :
    read_pxl p d = read_pxl q d := by
  unfold read_pxl
  rw [parse_pxl_ext p q d h1, h2, h3]

theorem read_pxl_ok_of_dec (p : Prims) (d : Bytes) (o : ParseOut) (img : Bytes)
    (hp : parse_pxl p d = .ok o)
    (hd : p.aeadDec (p.deriveKey o.mbytes) o.nonce o.encrypted = some img) :
    read_pxl p d = .ok (img, o.manifest) := by
  unfold read_pxl
  rw [hp]
  show (match p.aeadDec (p.deriveKey o.mbytes) o.nonce o.encrypted with
        | none => Except.error ReadErr.decryptFailed
        | some img => Except.ok (img, o.manifest)) = Except.ok (img, o.manifest)
  rw [hd]

-- ## Claims

set_option maxRecDepth 400000

/-- C1 (counterexample): a file whose manifest declares `num_chunks = 5`
and `total_size = 999` while its single decrypted byte re-hashes to the
manifest's one chunk hash and root still verifies — `verify_pxl`
performs no `num_chunks` or `total_size` consistency check. -/
theorem c1_counterexample :
    verify_pxl cx1P cx1File [] = true ∧
    read_pxl cx1P cx1File = .ok ([0], cx1M) ∧
    cx1M.num_chunks ≠ cx1M.chunk_hashes.length ∧
    cx1M.total_size ≠ ([0] : Bytes).length :=
  ⟨rfl, rfl, by decide, by decide⟩

/-- C1 (amended): after recomputing the chunk hashes and Merkle root,
`verify_pxl` compares them against the manifest's `chunk_hashes` and
`merkle_root` and returns false on any mismatch; it performs no
`num_chunks = len(chunk_hashes)` or `total_size = len(plaintext)`
check (the counterexample exhibits a verified file violating both). -/
theorem c1_verify_merkle_checks_only (p : Prims) (d pk : Bytes) (o : ParseOut)
    (img : Bytes) (root : String) (hashes : List String)
    (hp : parse_pxl p d = .ok o)
    (hd : p.aeadDec (p.deriveKey o.mbytes) o.nonce o.encrypted = some img)
    (hb : build_merkle_tree p (chunk_bytes img o.manifest.chunk_size)
          = some (root, hashes))
    (hne : hashes ≠ o.manifest.chunk_hashes ∨ root ≠ o.manifest.merkle_root) :
    verify_pxl p d pk = false :=
  verify_false_of_mismatch p d pk o img root hashes hp hd hb hne

/-- C1 witness: a concrete file whose recomputed hash list disagrees
with its manifest is rejected. -/
theorem c1_witness : verify_pxl w1P w1File [] = false :=
  c1_verify_merkle_checks_only w1P w1File [] w1O [0] "h" ["h"] rfl rfl rfl
    (Or.inl (by decide))

/-- C2 (counterexample): packing payload `[65]` with metadata
`{"a": "PXL!"}` under the reference JSON encoder puts the MAGIC bytes
inside the manifest, so the last MAGIC occurrence (found by rfind) is
not the anchor at offset 17 = |ciphertext|, and the tail-anchored parse
fails instead of recovering what `pack_image` wrote. -/
theorem c2_counterexample :
    pack_image cx2P [65] [("a", "PXL!")] [3] = some cx2File ∧
    (cx2P.aeadEnc (cx2P.deriveKey (cx2P.encManifest
        (packManifest cx2P [65] [("a", "PXL!")]))) cx2P.randNonce [65]).length
      = 17 ∧
    rfindMagic cx2File ≠ some 17 ∧
    read_pxl cx2P cx2File = .error .badVersion :=
  ⟨rfl, rfl, by decide, rfl⟩

/-- C2 (amended): provided MAGIC does not reoccur in the trailer past
its anchor, the last MAGIC occurrence in a file produced by
`pack_image` is the anchor preceding the trailer, and the tail-anchored
parse recovers exactly the version, manifest bytes, manifest,
signature and nonce that `pack_image` wrote. -/
theorem c2_anchor_parse (p : Prims) (B : Bytes) (M : MetaMap) (k out : Bytes)
    (hB : B ≠ [])
    (hpack : pack_image p B M k = some out)
    (hdec : p.decManifest (p.encManifest (packManifest p B M))
            = some (packManifest p B M))
    (hsig : (p.sign (p.encManifest (packManifest p B M)) k).length = 64)
    (hml : (p.encManifest (packManifest p B M)).length < 2 ^ 32)
    (hnl : noLaterMagic (trailerBytes (p.encManifest (packManifest p B M))
             (p.sign (p.encManifest (packManifest p B M)) k) p.randNonce)
           = true) :
    rfindMagic out
      = some (p.aeadEnc (p.deriveKey (p.encManifest (packManifest p B M)))
              p.randNonce B).length ∧
    parse_pxl p out
      = .ok ⟨p.aeadEnc (p.deriveKey (p.encManifest (packManifest p B M)))
               p.randNonce B,
             VERSION, p.encManifest (packManifest p B M), packManifest p B M,
             p.sign (p.encManifest (packManifest p B M)) k, p.randNonce⟩ := by
  rw [pack_eq p B M k hB] at hpack
  injection hpack with hout
  subst hout
  exact parse_of_pack p _ _ _ _ _ hdec hsig hml hnl

/-- C2 witness: the anchor of a concrete benign packed file is found at
the ciphertext length. -/
theorem c2_witness :
    rfindMagic w2File
      = some (w2P.aeadEnc (w2P.deriveKey (w2P.encManifest
          (packManifest w2P [5] []))) w2P.randNonce [5]).length :=
  (c2_anchor_parse w2P [5] [] [0] w2File (by decide) rfl rfl (by decide)
    (by decide) (by decide)).1

/-- C3 (counterexample): on a zero-length buffer the chunker returns
the empty list normally — it does not fail; the EmptyPayload failure is
raised downstream by the Merkle builder on the empty chunk list. -/
theorem c3_counterexample :
    chunk_bytes ([] : Bytes) 262144 = [] ∧
    build_merkle_tree w6P (chunk_bytes ([] : Bytes) 262144) = none :=
  ⟨rfl, rfl⟩

/-- C3 (amended): the chunker itself never fails: on empty input it
returns the empty list, and for non-empty `B` and `n ≥ 1` it returns
the slice sequence `[B[0:n], B[n:2n], ...]` of length `ceil(|B|/n)`
whose non-final slices have length exactly `n` and whose final slice
has length in `[1, n]`. -/
theorem c3_chunker_slices (d : Bytes) (n i : Nat) (hn : 1 ≤ n) (_hd : d ≠ []) :
    chunk_bytes ([] : Bytes) n = [] ∧
    (chunk_bytes d n).length = (d.length + n - 1) / n ∧
    (i < (chunk_bytes d n).length →
      (chunk_bytes d n).getD i [] = (d.drop (i * n)).take n) ∧
    (i + 1 < (chunk_bytes d n).length →
      ((chunk_bytes d n).getD i []).length = n) ∧
    (i + 1 = (chunk_bytes d n).length →
      1 ≤ ((chunk_bytes d n).getD i []).length ∧
      ((chunk_bytes d n).getD i []).length ≤ n) := by
  refine ⟨chunk_bytes_nil n, chunk_bytes_length d n hn, ?_, ?_, ?_⟩
  · intro h
    exact chunk_bytes_getD i d n hn h
  · intro h
    exact chunk_bytes_len_of_not_last i d n hn h
  · intro h
    exact chunk_bytes_last_len i d n hn h

/-- C3 witness: the chunk count of a concrete split. -/
theorem c3_witness :
    (chunk_bytes [1, 2, 3] 2).length = (([1, 2, 3] : Bytes).length + 2 - 1) / 2 :=
  (c3_chunker_slices [1, 2, 3] 2 1 (by decide) (by decide)).2.1

/-- C4: `verify_pxl` is a total Boolean function of its inputs — it
returns true exactly when parsing, the Ed25519 check, AEAD decryption
and the Merkle comparison all succeed, so every lower-level failure is
converted to the return value false rather than propagated. -/
theorem c4_verify_never_raises (p : Prims) (d pk : Bytes) :
    verify_pxl p d pk = true ↔
      ∃ o img root hashes,
        parse_pxl p d = .ok o ∧
        p.verifySig o.mbytes o.signature pk = true ∧
        p.aeadDec (p.deriveKey o.mbytes) o.nonce o.encrypted = some img ∧
        build_merkle_tree p (chunk_bytes img o.manifest.chunk_size)
          = some (root, hashes) ∧
        hashes = o.manifest.chunk_hashes ∧ root = o.manifest.merkle_root :=
  verify_pxl_true_iff p d pk

/-- C5 (counterexample): the round trip fails for metadata containing
the bytes "PXL!": the packed file's last MAGIC occurrence lies inside
the manifest, so `read_pxl` raises a version error instead of
returning the payload and manifest. -/
theorem c5_counterexample :
    pack_image cx5P [66, 67] [("a", "PXL!")] [0] = some cx5File ∧
    read_pxl cx5P cx5File = .error .badVersion ∧
    read_pxl cx5P cx5File
      ≠ .ok ([66, 67], packManifest cx5P [66, 67] [("a", "PXL!")]) :=
  ⟨rfl, rfl, by
    rw [show read_pxl cx5P cx5File = Except.error ReadErr.badVersion from rfl]
    exact fun h => Except.noConfusion h⟩

/-- C5 (amended): provided MAGIC does not reoccur in the trailer past
its anchor, reading a packed file returns exactly the payload together
with the manifest `pack_image` built: metadata `M`, the chunk hashes
and Merkle root of `B`, chunk size 262144, total size `|B|` and
`ceil(|B| / 262144)` chunks. -/
theorem c5_round_trip (p : Prims) (B : Bytes) (M : MetaMap) (k out : Bytes)
    (hB : B ≠ [])
    (hpack : pack_image p B M k = some out)
    (hdec : p.decManifest (p.encManifest (packManifest p B M))
            = some (packManifest p B M))
    (hsig : (p.sign (p.encManifest (packManifest p B M)) k).length = 64)
    (hml : (p.encManifest (packManifest p B M)).length < 2 ^ 32)
    (hnl : noLaterMagic (trailerBytes (p.encManifest (packManifest p B M))
             (p.sign (p.encManifest (packManifest p B M)) k) p.randNonce)
           = true)
    (haead : p.aeadDec (p.deriveKey (p.encManifest (packManifest p B M)))
               p.randNonce
               (p.aeadEnc (p.deriveKey (p.encManifest (packManifest p B M)))
                 p.randNonce B)
             = some B) :
    read_pxl p out = .ok (B, packManifest p B M) ∧
    (packManifest p B M).metadata = M ∧
    (packManifest p B M).chunk_size = CHUNK_SIZE ∧
    (packManifest p B M).total_size = B.length ∧
    (packManifest p B M).chunk_hashes
      = (chunk_bytes B CHUNK_SIZE).map p.blake3Hex ∧
    (packManifest p B M).merkle_root
      = (merkleReduce p ((chunk_bytes B CHUNK_SIZE).map p.blake3Hex)).headD "" ∧
    (packManifest p B M).num_chunks = (B.length + CHUNK_SIZE - 1) / CHUNK_SIZE := by
  rw [pack_eq p B M k hB] at hpack
  injection hpack with hout
  subst hout
  obtain ⟨-, hparse⟩ := parse_of_pack p
    (p.aeadEnc (p.deriveKey (p.encManifest (packManifest p B M))) p.randNonce B)
    (p.encManifest (packManifest p B M))
    (p.sign (p.encManifest (packManifest p B M)) k)
    p.randNonce (packManifest p B M) hdec hsig hml hnl
  exact ⟨read_pxl_ok_of_dec p _ _ B hparse haead, rfl, rfl, rfl, rfl, rfl,
    chunk_bytes_length B CHUNK_SIZE (by norm_num [CHUNK_SIZE])⟩

/-- C5 witness: a concrete benign pack/read round trip. -/
theorem c5_witness :
    read_pxl w5P w5File = .ok ([8, 9], packManifest w5P [8, 9] []) :=
  (c5_round_trip w5P [8, 9] [] [0] w5File (by decide) rfl rfl (by decide)
    (by decide) (by decide) rfl).1

/-- C6: the Merkle builder returns the list of leaf hashes together
with a root obtained by repeatedly replacing a level of length ≥ 2
with its reduction pass; the pass equals the index-based
specification — pair `(level[2i], level[2i+1])` from index 0,
duplicating the last element on odd length, hashing the bytes of the
two children's hex strings concatenated — a non-empty level reduces to
exactly one hash, and a single chunk's root is that chunk's hash. -/
theorem c6_merkle (p : Prims) (chunks : List Bytes) (hne : chunks ≠ []) :
    build_merkle_tree p chunks
      = some ((merkleReduce p (chunks.map p.blake3Hex)).headD "",
              chunks.map p.blake3Hex) ∧
    (merkleReduce p (chunks.map p.blake3Hex)).length = 1 ∧
    merkleLevelUp p (chunks.map p.blake3Hex)
      = pairUpSpec p (chunks.map p.blake3Hex) ∧
    (2 ≤ (chunks.map p.blake3Hex).length →
      merkleReduce p (chunks.map p.blake3Hex)
        = merkleReduce p (pairUpSpec p (chunks.map p.blake3Hex))) ∧
    ((chunks.map p.blake3Hex).length = 1 →
      (merkleReduce p (chunks.map p.blake3Hex)).headD ""
        = p.blake3Hex (chunks.headD [])) := by
  have hmne : chunks.map p.blake3Hex ≠ [] := by
    intro h
    exact hne (List.map_eq_nil_iff.mp h)
  refine ⟨build_merkle_tree_of_ne_nil p chunks hne,
    merkleReduce_length_one p _ hmne,
    merkleLevelUp_eq_pairUpSpec p _, ?_, ?_⟩
  · intro h2
    rw [← merkleLevelUp_eq_pairUpSpec p _]
    exact merkleReduce_step p _ h2
  · intro h1
    obtain ⟨x, hx⟩ := List.length_eq_one.mp h1
    rw [hx, merkleReduce_singleton]
    cases chunks with
    | nil => simp at hx
    | cons c rest =>
      simp only [List.map_cons, List.cons.injEq] at hx
      obtain ⟨hx1, _⟩ := hx
      simp [← hx1]

/-- C6 witness: the builder on a concrete three-chunk list. -/
theorem c6_witness :
    build_merkle_tree w6P [[1], [2], [3]]
      = some ((merkleReduce w6P ([[1], [2], [3]].map w6P.blake3Hex)).headD "",
              [[1], [2], [3]].map w6P.blake3Hex) :=
  (c6_merkle w6P [[1], [2], [3]] (by decide)).1

/-- C7: `read_pxl` never consults the Ed25519 primitives: any two
primitive records that agree on JSON decoding, key derivation and AEAD
decryption — but may differ arbitrarily in their sign and
signature-verification fields — parse and read every file
identically, so decryption success depends only on the AEAD tag. -/
theorem c7_read_ignores_signature (p q : Prims) (d : Bytes)
    (h1 : p.decManifest = q.decManifest)
    (h2 : p.deriveKey = q.deriveKey)
    (h3 : p.aeadDec = q.aeadDec) :
    parse_pxl p d = parse_pxl q d ∧ read_pxl p d = read_pxl q d :=
  ⟨parse_pxl_ext p q d h1, read_pxl_ext p q d h1 h2 h3⟩

/-- C7 witness: two records differing only in the signature primitives
read a concrete file identically. -/
theorem c7_witness :
    parse_pxl w7aP w7File = parse_pxl w7bP w7File ∧
    read_pxl w7aP w7File = read_pxl w7bP w7File :=
  c7_read_ignores_signature w7aP w7bP w7File rfl rfl rfl

/-- C8: a packed file is exactly the encrypted image followed by MAGIC,
the version byte, the little-endian manifest length, the manifest
bytes, the 64-byte signature, the nonce-length byte, the 24-byte nonce
and the footer, so its size is L + 16 + 4 + 1 + 4 + |MB| + 64 + 1 +
24 + 4. -/
theorem c8_layout_and_size (p : Prims) (B : Bytes) (M : MetaMap) (k out : Bytes)
    (hB : B ≠ [])
    (hpack : pack_image p B M k = some out)
    (hct : (p.aeadEnc (p.deriveKey (p.encManifest (packManifest p B M)))
            p.randNonce B).length = B.length + 16)
    (hsg : (p.sign (p.encManifest (packManifest p B M)) k).length = 64)
    (hn : p.randNonce.length = 24) :
    out = p.aeadEnc (p.deriveKey (p.encManifest (packManifest p B M)))
            p.randNonce B
          ++ trailerBytes (p.encManifest (packManifest p B M))
               (p.sign (p.encManifest (packManifest p B M)) k) p.randNonce ∧
    out.length = B.length + 16 + 4 + 1 + 4
        + (p.encManifest (packManifest p B M)).length + 64 + 1 + 24 + 4 := by
  rw [pack_eq p B M k hB] at hpack
  injection hpack with hout
  subst hout
  refine ⟨rfl, ?_⟩
  rw [List.length_append, trailerBytes, trailerCore_length, hct, hsg, hn]
  simp [FOOTER]
  omega

/-- C8 witness: the size formula on a concrete pack. -/
theorem c8_witness :
    w8File.length = ([9] : Bytes).length + 16 + 4 + 1 + 4
        + (w8P.encManifest (packManifest w8P [9] [])).length + 64 + 1 + 24 + 4 :=
  (c8_layout_and_size w8P [9] [] [0] w8File (by decide) rfl rfl (by decide)
    rfl).2

/-- C9: removing the last 4 bytes (the footer) from a file produced by
`pack_image` makes `read_pxl` fail with a structural error — the
version error when `rfind` anchors on a MAGIC occurrence inside the
manifest, the footer error when it anchors on the true anchor — and
makes `verify_pxl` return false.  The hypotheses are facts of the real
primitives: the canonical JSON manifest bytes decode back, are at
least 4 printable ASCII bytes (codes 32..126) ending in the closing
brace 125, and are shorter than 2^32; the signature is 64 bytes; and
the concrete signature, nonce-length and nonce bytes contain no
occurrence of the 4-byte MAGIC pattern. -/
theorem c9_truncated_file_rejected (p : Prims) (B : Bytes) (M : MetaMap)
    (k out pk : Bytes)
    (hB : B ≠ [])
    (hpack : pack_image p B M k = some out)
    (hdec : p.decManifest (p.encManifest (packManifest p B M))
            = some (packManifest p B M))
    (hsig : (p.sign (p.encManifest (packManifest p B M)) k).length = 64)
    (hml : (p.encManifest (packManifest p B M)).length < 2 ^ 32)
    (hmb4 : 4 ≤ (p.encManifest (packManifest p B M)).length)
    (hlast : (p.encManifest (packManifest p B M)).getLast? = some 125)
    (hprint : ∀ b ∈ p.encManifest (packManifest p B M), 32 ≤ b ∧ b ≤ 126)
    (hsn : noMagicIn (p.sign (p.encManifest (packManifest p B M)) k
             ++ [p.randNonce.length] ++ p.randNonce) = true) :
    (read_pxl p (out.take (out.length - 4)) = .error .badVersion ∨
     read_pxl p (out.take (out.length - 4)) = .error .badFooter) ∧
    verify_pxl p (out.take (out.length - 4)) pk = false := by
  rw [pack_eq p B M k hB] at hpack
  injection hpack with hout
  subst hout
  rcases truncated_parse_structural p
      (p.aeadEnc (p.deriveKey (p.encManifest (packManifest p B M)))
        p.randNonce B)
      (p.encManifest (packManifest p B M))
      (p.sign (p.encManifest (packManifest p B M)) k)
      p.randNonce (packManifest p B M) hdec hsig hml hmb4 hlast hprint hsn
    with h | h
  · exact ⟨Or.inl (read_pxl_of_parse_error p _ _ h),
      verify_pxl_of_parse_error p _ pk _ h⟩
  · exact ⟨Or.inr (read_pxl_of_parse_error p _ _ h),
      verify_pxl_of_parse_error p _ pk _ h⟩

/-- C9 witness: a concrete packed file — with genuine canonical-JSON
manifest bytes — is rejected once its footer is removed. -/
theorem c9_witness :
    (read_pxl w9P (w9File.take (w9File.length - 4)) = .error .badVersion ∨
     read_pxl w9P (w9File.take (w9File.length - 4)) = .error .badFooter) ∧
    verify_pxl w9P (w9File.take (w9File.length - 4)) [] = false :=
  c9_truncated_file_rejected w9P [4] [] [0] w9File [] (by decide) rfl rfl
    (by decide) (by decide) (by decide) (by decide) (by decide) (by decide)

/-- C10: packing a zero-length payload fails inside the Merkle builder
before any output bytes exist: the chunker yields the empty list,
`build_merkle_tree` rejects it, and `pack_image` returns `none` — in
the Python code the `ValueError` is raised before the output path is
opened, so no output file is created or modified. -/
theorem c10_empty_payload_no_output (p : Prims) (M : MetaMap) (k : Bytes) :
    chunk_bytes ([] : Bytes) CHUNK_SIZE = [] ∧
    build_merkle_tree p (chunk_bytes ([] : Bytes) CHUNK_SIZE) = none ∧
    pack_image p [] M k = none :=
  ⟨rfl, rfl, rfl⟩
